import Mathlib

/-!
# ORC RLEv2 decoder header (`c++/src/RLEv2.hh`)

A shallow embedding of the parts of `RLEv2.hh` whose bodies are in the header:
the `FixedBitSizes::FBS` and `EncodingType` enumerations, and the inline
members `adjustGapAndPatch`, `resetReadLongs` and `resetRun` of `RleDecoderV2`.

Machine integers: `uint64_t` values are natural numbers below `2 ^ 64`,
`int64_t` values are integers read in two's complement.  `toUInt64` is
`static_cast<uint64_t>`, `toInt64` is the conversion back to `int64_t`.
-/

namespace orc

/-! ## Enumerations -/

/-- Enumeration `FixedBitSizes::FBS`, enumerators in declaration order. -/
inductive FBS where
  | ONE | TWO | THREE | FOUR | FIVE | SIX | SEVEN | EIGHT | NINE | TEN | ELEVEN | TWELVE
  | THIRTEEN | FOURTEEN | FIFTEEN | SIXTEEN | SEVENTEEN | EIGHTEEN | NINETEEN
  | TWENTY | TWENTYONE | TWENTYTWO | TWENTYTHREE | TWENTYFOUR | TWENTYSIX
  | TWENTYEIGHT | THIRTY | THIRTYTWO | FORTY | FORTYEIGHT | FIFTYSIX | SIXTYFOUR | SIZE
  deriving DecidableEq, Repr

/-- Every enumerator of `FBS`, in declaration order. -/
def FBS.enumerators : List FBS :=
  [.ONE, .TWO, .THREE, .FOUR, .FIVE, .SIX, .SEVEN, .EIGHT, .NINE, .TEN, .ELEVEN, .TWELVE,
   .THIRTEEN, .FOURTEEN, .FIFTEEN, .SIXTEEN, .SEVENTEEN, .EIGHTEEN, .NINETEEN,
   .TWENTY, .TWENTYONE, .TWENTYTWO, .TWENTYTHREE, .TWENTYFOUR, .TWENTYSIX,
   .TWENTYEIGHT, .THIRTY, .THIRTYTWO, .FORTY, .FORTYEIGHT, .FIFTYSIX, .SIXTYFOUR, .SIZE]

/-- The integer value of an enumerator: `ONE = 0`, each following enumerator one more. -/
def FBS.code : FBS → Nat
  | .ONE => 0 | .TWO => 1 | .THREE => 2 | .FOUR => 3 | .FIVE => 4 | .SIX => 5
  | .SEVEN => 6 | .EIGHT => 7 | .NINE => 8 | .TEN => 9 | .ELEVEN => 10 | .TWELVE => 11
  | .THIRTEEN => 12 | .FOURTEEN => 13 | .FIFTEEN => 14 | .SIXTEEN => 15
  | .SEVENTEEN => 16 | .EIGHTEEN => 17 | .NINETEEN => 18 | .TWENTY => 19
  | .TWENTYONE => 20 | .TWENTYTWO => 21 | .TWENTYTHREE => 22 | .TWENTYFOUR => 23
  | .TWENTYSIX => 24 | .TWENTYEIGHT => 25 | .THIRTY => 26 | .THIRTYTWO => 27
  | .FORTY => 28 | .FORTYEIGHT => 29 | .FIFTYSIX => 30 | .SIXTYFOUR => 31 | .SIZE => 32

/-- The bit width an enumerator names; `SIZE` counts the enumerators and names no width. -/
def FBS.width : FBS → Option Nat
  | .ONE => some 1 | .TWO => some 2 | .THREE => some 3 | .FOUR => some 4
  | .FIVE => some 5 | .SIX => some 6 | .SEVEN => some 7 | .EIGHT => some 8
  | .NINE => some 9 | .TEN => some 10 | .ELEVEN => some 11 | .TWELVE => some 12
  | .THIRTEEN => some 13 | .FOURTEEN => some 14 | .FIFTEEN => some 15
  | .SIXTEEN => some 16 | .SEVENTEEN => some 17 | .EIGHTEEN => some 18
  | .NINETEEN => some 19 | .TWENTY => some 20 | .TWENTYONE => some 21
  | .TWENTYTWO => some 22 | .TWENTYTHREE => some 23 | .TWENTYFOUR => some 24
  | .TWENTYSIX => some 26 | .TWENTYEIGHT => some 28 | .THIRTY => some 30
  | .THIRTYTWO => some 32 | .FORTY => some 40 | .FORTYEIGHT => some 48
  | .FIFTYSIX => some 56 | .SIXTYFOUR => some 64 | .SIZE => none

/-- The widths of the ladder as the specification lists them. -/
def ladderWidths : List Nat :=
  [1, 2, 3, 4, 5, 6, 7, 8, 9, 10, 11, 12, 13, 14, 15, 16, 17, 18, 19, 20, 21, 22, 23, 24,
   26, 28, 30, 32, 40, 48, 56, 64]

/-- Enumeration `EncodingType`. -/
inductive EncodingType where
  | SHORT_REPEAT | DIRECT | PATCHED_BASE | DELTA
  deriving DecidableEq, Repr

/-- The integer value of an `EncodingType` enumerator, as written in the declaration. -/
def EncodingType.code : EncodingType → Nat
  | .SHORT_REPEAT => 0 | .DIRECT => 1 | .PATCHED_BASE => 2 | .DELTA => 3

/-- Modelled from the spec: the tag extraction `(first >> 6) & 0x3` on the first header
byte; the expression is in the decoder body, which the header does not contain. -/
def encodingTag (first : Nat) : Nat := (first >>> 6) &&& 0x3

/-! ## 64-bit integers -/

/-- Conversion `static_cast<uint64_t>` of an integer: its residue modulo `2 ^ 64`. -/
def toUInt64 (x : Int) : Nat := (x % 2 ^ 64).toNat

/-- Conversion of a 64-bit pattern to `int64_t` (two's complement). -/
def toInt64 (n : Nat) : Int :=
  if n % 2 ^ 64 < 2 ^ 63 then ((n % 2 ^ 64 : Nat) : Int) else ((n % 2 ^ 64 : Nat) : Int) - 2 ^ 64

/-- An integer result stored into an `int64_t`: reduced modulo `2 ^ 64`, read signed. -/
def wrapInt64 (x : Int) : Int := toInt64 (toUInt64 x)

/-- Operator `&` on two `int64_t` operands. -/
def andInt64 (a b : Int) : Int := toInt64 (toUInt64 a &&& toUInt64 b)

/-! ## Decoder state -/

/-- Data members of `RleDecoderV2`, in declaration order.  The input stream object is
left out; the raw pointers `bufferStart` and `bufferEnd` are positions. -/
structure RleDecoderV2 where
  isSigned : Bool
  firstByte : Nat
  runLength : Nat
  runRead : Nat
  bufferStart : Nat
  bufferEnd : Nat
  deltaBase : Int
  byteSize : Nat
  firstValue : Int
  prevValue : Int
  bitSize : Nat
  bitsLeft : Nat
  curByte : Nat
  patchBitSize : Nat
  unpackedIdx : Nat
  patchIdx : Nat
  base : Int
  curGap : Nat
  curPatch : Int
  patchMask : Int
  actualGap : Int
  unpacked : List Int
  unpackedPatch : List Int
  deriving DecidableEq, Repr

/-- Modelled from the spec: the error kinds of the codec.  The header includes
`orc/Exceptions.hh`, which declares them and is not among the sources. -/
inductive OrcException where
  | ParseError | NotImplementedYet | OutOfRange
  deriving DecidableEq, Repr

/-- How a call ends: it returns with a new state, it throws, or it reads `unpackedPatch`
at an index that is not below the buffer size (`DataBuffer::operator[]` does no bounds
check, so the behaviour of the program from that read on is undefined).  `outOfFuel` is
the result of the loop model when its iteration budget is used up. -/
inductive Result where
  | returned (s : RleDecoderV2)
  | threw (e : OrcException)
  | readPastEnd (idx : Nat)
  | outOfFuel
  deriving DecidableEq, Repr

/-- A run of a member function: the indices of `unpackedPatch` it read, in order, and
how it ended. -/
structure Run where
  reads : List Nat
  result : Result
  deriving DecidableEq, Repr

/-- The pair of assignments
`curGap = static_cast<uint64_t>(unpackedPatch[patchIdx]) >> patchBitSize;`
`curPatch = unpackedPatch[patchIdx] & patchMask;`
It yields `none` when `patchIdx` is not an index of `unpackedPatch`. -/
def loadGapAndPatch (s : RleDecoderV2) : Option RleDecoderV2 :=
  match s.unpackedPatch[s.patchIdx]? with
  | none => none
  | some e =>
    some { s with curGap := toUInt64 e >>> s.patchBitSize, curPatch := andInt64 e s.patchMask }

/-- The `while (curGap == 255 && curPatch == 0)` loop of `adjustGapAndPatch` followed by
`actualGap += curGap;`.  The first argument bounds the number of evaluations of the loop
condition; `reads` accumulates the indices read so far.  The two additions to the
`int64_t` member `actualGap` are reduced modulo `2 ^ 64`.  The increment of `patchIdx`
follows a read at `patchIdx` that was inside the buffer, whose size is a `uint64_t`, so
it does not wrap. -/
def adjustLoop : Nat → RleDecoderV2 → List Nat → Run
  | 0, _, reads => ⟨reads, .outOfFuel⟩
  | fuel + 1, s, reads =>
    if s.curGap = 255 ∧ s.curPatch = 0 then
      let s1 := { s with actualGap := wrapInt64 (s.actualGap + 255), patchIdx := s.patchIdx + 1 }
      match loadGapAndPatch s1 with
      | none => ⟨reads ++ [s1.patchIdx], .readPastEnd s1.patchIdx⟩
      | some s2 => adjustLoop fuel s2 (reads ++ [s1.patchIdx])
    else
      ⟨reads, .returned { s with actualGap := wrapInt64 (s.actualGap + (s.curGap : Int)) }⟩

/-- Member `RleDecoderV2::adjustGapAndPatch`.  The loop is given one condition evaluation
per entry from `patchIdx` to the end of `unpackedPatch`, which it cannot exceed. -/
def adjustGapAndPatch (s : RleDecoderV2) : Run :=
  match loadGapAndPatch s with
  | none => ⟨[s.patchIdx], .readPastEnd s.patchIdx⟩
  | some s1 =>
    adjustLoop (s.unpackedPatch.length - s.patchIdx) { s1 with actualGap := 0 } [s.patchIdx]

/-- Member `RleDecoderV2::resetReadLongs`. -/
def resetReadLongs (s : RleDecoderV2) : RleDecoderV2 :=
  { s with bitsLeft := 0, curByte := 0 }

/-- Member `RleDecoderV2::resetRun`. -/
def resetRun (s : RleDecoderV2) : RleDecoderV2 :=
  { resetReadLongs s with bitSize := 0 }

/-! ## Vocabulary of the statements -/

/-- The state after a return of `adjustGapAndPatch`: only the cursor and the three current
fields differ from `s`. -/
def withCursor (s : RleDecoderV2) (idx gap : Nat) (patch act : Int) : RleDecoderV2 :=
  { s with patchIdx := idx, curGap := gap, curPatch := patch, actualGap := act }


/-- The gap field of a patch-list entry: the 64-bit pattern shifted right. -/
def gapOf (patchBitSize : Nat) (entry : Int) : Nat := toUInt64 entry >>> patchBitSize

/-- The patch field of a patch-list entry. -/
def patchOf (patchMask : Int) (entry : Int) : Int := andInt64 entry patchMask

/-- A gap-overflow marker: decoded gap 255 and decoded patch 0. -/
def isMarker (patchBitSize : Nat) (patchMask : Int) (entry : Int) : Prop :=
  gapOf patchBitSize entry = 255 ∧ patchOf patchMask entry = 0

instance (patchBitSize : Nat) (patchMask : Int) (entry : Int) :
    Decidable (isMarker patchBitSize patchMask entry) := by
  unfold isMarker; exact inferInstance

/-- Entry `j` of the patch list of a state (`0` outside the list). -/
def entryAt (s : RleDecoderV2) (j : Nat) : Int := s.unpackedPatch.getD j 0

/-- Entry `j` of the patch list of `s` is a gap-overflow marker. -/
def markerAt (s : RleDecoderV2) (j : Nat) : Prop :=
  isMarker s.patchBitSize s.patchMask (entryAt s j)

instance (s : RleDecoderV2) (j : Nat) : Decidable (markerAt s j) := by
  unfold markerAt; exact inferInstance

/-- A state with all scalar members zero, the given patch list, cursor and widths. -/
def patchState (patchBitSize : Nat) (patchMask : Int) (patchList : List Int)
    (patchIdx : Nat) : RleDecoderV2 :=
  { isSigned := true, firstByte := 0, runLength := 0, runRead := 0, bufferStart := 0,
    bufferEnd := 0, deltaBase := 0, byteSize := 0, firstValue := 0, prevValue := 0,
    bitSize := 0, bitsLeft := 0, curByte := 0, patchBitSize := patchBitSize,
    unpackedIdx := 0, patchIdx := patchIdx, base := 0, curGap := 0, curPatch := 0,
    patchMask := patchMask, actualGap := 0, unpacked := [], unpackedPatch := patchList }

/-- A state before a call, with non-zero members around the patch cursor: one marker,
then the entry with gap 3 and patch 5. -/
def sampleBefore : RleDecoderV2 :=
  { patchState 8 255 [0xFF00, 0x0305] 0 with
    runLength := 100, runRead := 7, bitSize := 4, bitsLeft := 3, curByte := 9,
    unpackedIdx := 7, base := -12, unpacked := [1, 2, 3], curGap := 77,
    curPatch := 78, actualGap := 79 }

/-- The state that `adjustGapAndPatch` returns from `sampleBefore`. -/
def sampleAfter : RleDecoderV2 :=
  { sampleBefore with patchIdx := 1, curGap := 3, curPatch := 5, actualGap := 258 }

/-! ## Lemmas on 64-bit arithmetic -/

theorem toUInt64_natCast (n : Nat) (h : n < 2 ^ 64) : toUInt64 (n : Int) = n := by
  unfold toUInt64; omega

theorem toUInt64_toInt64 (n : Nat) (h : n < 2 ^ 64) : toUInt64 (toInt64 n) = n := by
  unfold toUInt64 toInt64
  split <;> omega

theorem wrapInt64_emod (x : Int) : wrapInt64 x % 2 ^ 64 = x % 2 ^ 64 := by
  unfold wrapInt64 toInt64 toUInt64
  split <;> omega

theorem toUInt64_congr {x y : Int} (h : x % 2 ^ 64 = y % 2 ^ 64) : toUInt64 x = toUInt64 y := by
  unfold toUInt64; rw [h]

theorem wrapInt64_add_left (x y : Int) : wrapInt64 (wrapInt64 x + y) = wrapInt64 (x + y) := by
  unfold wrapInt64
  congr 1
  apply toUInt64_congr
  have := wrapInt64_emod x
  unfold wrapInt64 at this
  omega

theorem wrapInt64_of_range (x : Int) (h0 : -2 ^ 63 ≤ x) (h1 : x < 2 ^ 63) : wrapInt64 x = x := by
  unfold wrapInt64 toInt64 toUInt64
  split <;> omega

/-! ## The marker loop -/

theorem loadGapAndPatch_of_lt (s : RleDecoderV2) (h : s.patchIdx < s.unpackedPatch.length) :
    loadGapAndPatch s = some { s with
      curGap := gapOf s.patchBitSize (entryAt s s.patchIdx),
      curPatch := patchOf s.patchMask (entryAt s s.patchIdx) } := by
  unfold loadGapAndPatch entryAt gapOf patchOf
  rw [List.getElem?_eq_getElem h, List.getD_eq_getElem _ _ h]

theorem loadGapAndPatch_of_ge (s : RleDecoderV2) (h : s.unpackedPatch.length ≤ s.patchIdx) :
    loadGapAndPatch s = none := by
  unfold loadGapAndPatch
  rw [List.getElem?_eq_none h]

theorem range_succ_shift (i k : Nat) :
    [i + 1] ++ (List.range k).map (fun j => i + 1 + 1 + j)
      = (List.range (k + 1)).map (fun j => i + 1 + j) := by
  rw [List.range_succ_eq_map]
  simp only [List.map_cons, List.map_map, List.singleton_append, Nat.add_zero]
  congr 1
  apply List.map_congr_left
  intro a _
  simp only [Function.comp]
  omega

theorem adjustLoop_skip (k : Nat) : ∀ (fuel : Nat) (s : RleDecoderV2) (reads : List Nat),
    k < fuel → s.patchIdx + k < s.unpackedPatch.length →
    s.curGap = gapOf s.patchBitSize (entryAt s s.patchIdx) →
    s.curPatch = patchOf s.patchMask (entryAt s s.patchIdx) →
    (∀ j, j < k → markerAt s (s.patchIdx + j)) →
    ¬ markerAt s (s.patchIdx + k) →
    adjustLoop fuel s reads =
      ⟨reads ++ (List.range k).map (fun j => s.patchIdx + 1 + j),
       .returned (withCursor s (s.patchIdx + k)
          (gapOf s.patchBitSize (entryAt s (s.patchIdx + k)))
          (patchOf s.patchMask (entryAt s (s.patchIdx + k)))
          (wrapInt64 (s.actualGap + 255 * (k : Int)
            + (gapOf s.patchBitSize (entryAt s (s.patchIdx + k)) : Int))))⟩ := by
  induction k with
  | zero =>
    intro fuel s reads hf _ hg hp _ hn
    obtain ⟨f, rfl⟩ : ∃ f, fuel = f + 1 := ⟨fuel - 1, by omega⟩
    have hc : ¬ (s.curGap = 255 ∧ s.curPatch = 0) := by
      rw [hg, hp]; exact hn
    simp only [adjustLoop, if_neg hc, List.range_zero, List.map_nil, List.append_nil,
      Nat.add_zero, withCursor, Nat.cast_zero, mul_zero, add_zero]
    rw [← hg, ← hp]
  | succ k ih =>
    intro fuel s reads hf hlen hg hp hm hn
    obtain ⟨f, rfl⟩ : ∃ f, fuel = f + 1 := ⟨fuel - 1, by omega⟩
    have hc : s.curGap = 255 ∧ s.curPatch = 0 := by
      have := hm 0 (Nat.succ_pos k)
      rw [hg, hp]; exact this
    have hl : ({ s with actualGap := wrapInt64 (s.actualGap + 255),
                        patchIdx := s.patchIdx + 1 } : RleDecoderV2).patchIdx
        < ({ s with actualGap := wrapInt64 (s.actualGap + 255),
                    patchIdx := s.patchIdx + 1 } : RleDecoderV2).unpackedPatch.length := by
      show s.patchIdx + 1 < s.unpackedPatch.length
      omega
    simp only [adjustLoop, if_pos hc]
    rw [loadGapAndPatch_of_lt _ hl]
    simp only []
    rw [ih f _ _ (by omega) (by show s.patchIdx + 1 + k < s.unpackedPatch.length; omega)
      rfl rfl
      (by
        intro j hj
        have := hm (j + 1) (by omega)
        have e : s.patchIdx + 1 + j = s.patchIdx + (j + 1) := by omega
        show markerAt s (s.patchIdx + 1 + j)
        rw [e]; exact this)
      (by
        have e : s.patchIdx + 1 + k = s.patchIdx + (k + 1) := by omega
        show ¬ markerAt s (s.patchIdx + 1 + k)
        rw [e]; exact hn)]
    have e : s.patchIdx + 1 + k = s.patchIdx + (k + 1) := by omega
    simp only [withCursor, entryAt, e, List.append_assoc, range_succ_shift]
    congr 3
    rw [add_assoc (wrapInt64 (s.actualGap + 255)), wrapInt64_add_left]
    congr 1
    push_cast
    ring

theorem adjustLoop_overrun (m : Nat) : ∀ (fuel : Nat) (s : RleDecoderV2) (reads : List Nat),
    m < fuel → s.patchIdx + m + 1 = s.unpackedPatch.length →
    s.curGap = gapOf s.patchBitSize (entryAt s s.patchIdx) →
    s.curPatch = patchOf s.patchMask (entryAt s s.patchIdx) →
    (∀ j, j ≤ m → markerAt s (s.patchIdx + j)) →
    adjustLoop fuel s reads =
      ⟨reads ++ (List.range (m + 1)).map (fun j => s.patchIdx + 1 + j),
       .readPastEnd s.unpackedPatch.length⟩ := by
  induction m with
  | zero =>
    intro fuel s reads hf hlen hg hp hm
    obtain ⟨f, rfl⟩ : ∃ f, fuel = f + 1 := ⟨fuel - 1, by omega⟩
    have hc : s.curGap = 255 ∧ s.curPatch = 0 := by
      have := hm 0 (Nat.le_refl 0)
      rw [hg, hp]; exact this
    simp only [adjustLoop, if_pos hc]
    rw [loadGapAndPatch_of_ge _ (by show s.unpackedPatch.length ≤ s.patchIdx + 1; omega)]
    rw [show s.patchIdx + 1 = s.unpackedPatch.length by omega]
    rfl
  | succ m ih =>
    intro fuel s reads hf hlen hg hp hm
    obtain ⟨f, rfl⟩ : ∃ f, fuel = f + 1 := ⟨fuel - 1, by omega⟩
    have hc : s.curGap = 255 ∧ s.curPatch = 0 := by
      have := hm 0 (Nat.zero_le _)
      rw [hg, hp]; exact this
    simp only [adjustLoop, if_pos hc]
    rw [loadGapAndPatch_of_lt _ (by show s.patchIdx + 1 < s.unpackedPatch.length; omega)]
    simp only []
    rw [ih f _ _ (by omega) (by show s.patchIdx + 1 + m + 1 = s.unpackedPatch.length; omega)
      rfl rfl
      (by
        intro j hj
        have := hm (j + 1) (by omega)
        have e : s.patchIdx + 1 + j = s.patchIdx + (j + 1) := by omega
        show markerAt s (s.patchIdx + 1 + j)
        rw [e]; exact this)]
    simp only [List.append_assoc, range_succ_shift]

theorem range_shift_cons (i k : Nat) :
    [i] ++ (List.range k).map (fun j => i + 1 + j) = (List.range (k + 1)).map (fun j => i + j) := by
  rw [List.range_succ_eq_map]
  simp only [List.map_cons, List.map_map, List.singleton_append, Nat.add_zero]
  congr 1
  apply List.map_congr_left
  intro a _
  simp only [Function.comp]
  omega

/-- Forward characterisation: `k` markers then a proper entry. -/
theorem adjustGapAndPatch_of_markers (s : RleDecoderV2) (k : Nat)
    (hlen : s.patchIdx + k < s.unpackedPatch.length)
    (hm : ∀ j, j < k → markerAt s (s.patchIdx + j))
    (hn : ¬ markerAt s (s.patchIdx + k)) :
    adjustGapAndPatch s =
      ⟨(List.range (k + 1)).map (fun j => s.patchIdx + j),
       .returned (withCursor s (s.patchIdx + k)
          (gapOf s.patchBitSize (entryAt s (s.patchIdx + k)))
          (patchOf s.patchMask (entryAt s (s.patchIdx + k)))
          (wrapInt64 (255 * (k : Int)
            + (gapOf s.patchBitSize (entryAt s (s.patchIdx + k)) : Int))))⟩ := by
  unfold adjustGapAndPatch
  rw [loadGapAndPatch_of_lt s (by omega)]
  simp only []
  rw [adjustLoop_skip k (s.unpackedPatch.length - s.patchIdx)
    { s with curGap := gapOf s.patchBitSize (entryAt s s.patchIdx),
             curPatch := patchOf s.patchMask (entryAt s s.patchIdx),
             actualGap := 0 } [s.patchIdx] (by omega) hlen rfl rfl hm hn]
  simp only [withCursor, entryAt, zero_add, range_shift_cons]

/-- Every entry from the cursor on is a marker: the loop runs off the end of the list. -/
theorem adjustGapAndPatch_of_all_markers (s : RleDecoderV2)
    (hlt : s.patchIdx < s.unpackedPatch.length)
    (hm : ∀ j, s.patchIdx ≤ j → j < s.unpackedPatch.length → markerAt s j) :
    adjustGapAndPatch s =
      ⟨(List.range (s.unpackedPatch.length - s.patchIdx + 1)).map (fun j => s.patchIdx + j),
       .readPastEnd s.unpackedPatch.length⟩ := by
  unfold adjustGapAndPatch
  rw [loadGapAndPatch_of_lt s hlt]
  simp only []
  rw [adjustLoop_overrun (s.unpackedPatch.length - s.patchIdx - 1)
    (s.unpackedPatch.length - s.patchIdx)
    { s with curGap := gapOf s.patchBitSize (entryAt s s.patchIdx),
             curPatch := patchOf s.patchMask (entryAt s s.patchIdx),
             actualGap := 0 } [s.patchIdx]
    (by omega)
    (by show s.patchIdx + (s.unpackedPatch.length - s.patchIdx - 1) + 1 = s.unpackedPatch.length
        omega)
    rfl rfl
    (by
      intro j hj
      show markerAt s (s.patchIdx + j)
      exact hm _ (by omega) (by omega))]
  simp only [range_shift_cons]
  rw [show s.unpackedPatch.length - s.patchIdx - 1 + 1 = s.unpackedPatch.length - s.patchIdx
    by omega]

/-- The cursor is not an index of the list: the first read is already outside. -/
theorem adjustGapAndPatch_of_ge (s : RleDecoderV2)
    (h : s.unpackedPatch.length ≤ s.patchIdx) :
    adjustGapAndPatch s = ⟨[s.patchIdx], .readPastEnd s.patchIdx⟩ := by
  unfold adjustGapAndPatch
  rw [loadGapAndPatch_of_ge s h]

/-- Backward characterisation: a return means `k` markers were skipped. -/
theorem adjustGapAndPatch_returned_inv (s s' : RleDecoderV2)
    (h : (adjustGapAndPatch s).result = .returned s') :
    ∃ k, s.patchIdx + k < s.unpackedPatch.length ∧
      (∀ j, j < k → markerAt s (s.patchIdx + j)) ∧ ¬ markerAt s (s.patchIdx + k) ∧
      s' = withCursor s (s.patchIdx + k)
          (gapOf s.patchBitSize (entryAt s (s.patchIdx + k)))
          (patchOf s.patchMask (entryAt s (s.patchIdx + k)))
          (wrapInt64 (255 * (k : Int)
            + (gapOf s.patchBitSize (entryAt s (s.patchIdx + k)) : Int))) := by
  by_cases hlt : s.patchIdx < s.unpackedPatch.length
  · by_cases hex : ∃ k, s.patchIdx + k < s.unpackedPatch.length ∧ ¬ markerAt s (s.patchIdx + k)
    · classical
      have hk := Nat.find_spec hex
      have hmin : ∀ j, j < Nat.find hex → markerAt s (s.patchIdx + j) := by
        intro j hj
        have := Nat.find_min hex hj
        by_contra hc
        exact this ⟨by omega, hc⟩
      refine ⟨Nat.find hex, hk.1, hmin, hk.2, ?_⟩
      rw [adjustGapAndPatch_of_markers s _ hk.1 hmin hk.2] at h
      injection h with h
      exact h.symm
    · exfalso
      have hall : ∀ j, s.patchIdx ≤ j → j < s.unpackedPatch.length → markerAt s j := by
        intro j h1 h2
        by_contra hc
        apply hex
        refine ⟨j - s.patchIdx, ?_, ?_⟩
        · omega
        · rw [show s.patchIdx + (j - s.patchIdx) = j by omega]; exact hc
      rw [adjustGapAndPatch_of_all_markers s hlt hall] at h
      cases h
  · exfalso
    rw [adjustGapAndPatch_of_ge s (by omega)] at h
    cases h

/-! ## Enumerations and resets -/

theorem EncodingType.code_injective (a b : EncodingType) (h : a.code = b.code) : a = b := by
  cases a <;> cases b <;> first | rfl | (exfalso; revert h; decide)

theorem encodingTag_lt (first : Nat) : encodingTag first < 4 := by
  unfold encodingTag
  have : (first >>> 6) &&& 3 ≤ 3 := Nat.and_le_right
  omega

/-- C3: the `EncodingType` codes are SHORT_REPEAT=0, DIRECT=1, PATCHED_BASE=2, DELTA=3, and
the tag `(b >> 6) & 0x3` of every first header byte `b` in 0..255 is the code of exactly
one of the four sub-encodings. -/
theorem encodingTag_total_unambiguous :
    EncodingType.SHORT_REPEAT.code = 0 ∧ EncodingType.DIRECT.code = 1 ∧
    EncodingType.PATCHED_BASE.code = 2 ∧ EncodingType.DELTA.code = 3 ∧
    ∀ b : Nat, b < 256 → ∃! e : EncodingType, e.code = encodingTag b := by
  refine ⟨rfl, rfl, rfl, rfl, ?_⟩
  intro b _
  have hlt := encodingTag_lt b
  have hex : ∃ e : EncodingType, e.code = encodingTag b := by
    generalize encodingTag b = t at hlt
    interval_cases t
    · exact ⟨.SHORT_REPEAT, rfl⟩
    · exact ⟨.DIRECT, rfl⟩
    · exact ⟨.PATCHED_BASE, rfl⟩
    · exact ⟨.DELTA, rfl⟩
  obtain ⟨e, he⟩ := hex
  exact ⟨e, he, fun e' he' => EncodingType.code_injective e' e (he'.trans he.symm)⟩

theorem FBS.width_eq_of_code (f : FBS) (w : Nat) (h : f.width = some w) :
    f.code < 32 ∧ (f.code ≤ 23 → w = f.code + 1) ∧
    (23 < f.code → f.code ≤ 27 → w = 2 * f.code - 22) ∧
    (27 < f.code → w = 8 * f.code - 184) := by
  cases f <;> cases h <;> decide

/-- C4: `FBS` has exactly 32 width codes, ONE=0 up to SIXTYFOUR=31, with SIZE=32; the
widths they name are, in code order, 1..24, 26, 28, 30, 32, 40, 48, 56, 64; the width grows
strictly with the code; code `c` names width `c+1` for `c <= 23`; every width code is
below `2^5` and every value below `2^5` is the code of an enumerator naming a ladder
width. -/
theorem fbs_ladder :
    FBS.ONE.code = 0 ∧ FBS.SIXTYFOUR.code = 31 ∧ FBS.SIZE.code = 32 ∧
    (∀ f : FBS, f ∈ FBS.enumerators) ∧
    (∀ f : FBS, FBS.enumerators[f.code]? = some f) ∧
    (FBS.enumerators.filterMap FBS.width).length = 32 ∧
    FBS.enumerators.filterMap FBS.width = ladderWidths ∧
    (∀ f : FBS, (∃ w, f.width = some w) ↔ f.code < 32) ∧
    (∀ (f g : FBS) (w v : Nat), f.width = some w → g.width = some v →
      (f.code < g.code ↔ w < v)) ∧
    (∀ f : FBS, f.code ≤ 23 → f.width = some (f.code + 1)) ∧
    (∀ (f : FBS) (w : Nat), f.width = some w → f.code < 2 ^ 5) ∧
    (∀ c : Nat, c < 2 ^ 5 → ∃ (f : FBS) (w : Nat), f.code = c ∧ f.width = some w ∧ w ∈ ladderWidths) := by
  refine ⟨rfl, rfl, rfl, ?_, ?_, by decide, by decide, ?_, ?_, ?_, ?_, ?_⟩
  · intro f; cases f <;> decide
  · intro f; cases f <;> rfl
  · intro f; cases f <;> simp [FBS.width, FBS.code]
  · intro f g w v hf hg
    have h1 := FBS.width_eq_of_code f w hf
    have h2 := FBS.width_eq_of_code g v hg
    omega
  · intro f; cases f <;> simp [FBS.width, FBS.code]
  · intro f w; cases f <;> simp [FBS.width, FBS.code]
  · intro c hc
    have hc' : c < 32 := hc
    interval_cases c
    all_goals first
      | exact ⟨.ONE, _, rfl, rfl, by decide⟩ | exact ⟨.TWO, _, rfl, rfl, by decide⟩
      | exact ⟨.THREE, _, rfl, rfl, by decide⟩ | exact ⟨.FOUR, _, rfl, rfl, by decide⟩
      | exact ⟨.FIVE, _, rfl, rfl, by decide⟩ | exact ⟨.SIX, _, rfl, rfl, by decide⟩
      | exact ⟨.SEVEN, _, rfl, rfl, by decide⟩ | exact ⟨.EIGHT, _, rfl, rfl, by decide⟩
      | exact ⟨.NINE, _, rfl, rfl, by decide⟩ | exact ⟨.TEN, _, rfl, rfl, by decide⟩
      | exact ⟨.ELEVEN, _, rfl, rfl, by decide⟩ | exact ⟨.TWELVE, _, rfl, rfl, by decide⟩
      | exact ⟨.THIRTEEN, _, rfl, rfl, by decide⟩ | exact ⟨.FOURTEEN, _, rfl, rfl, by decide⟩
      | exact ⟨.FIFTEEN, _, rfl, rfl, by decide⟩ | exact ⟨.SIXTEEN, _, rfl, rfl, by decide⟩
      | exact ⟨.SEVENTEEN, _, rfl, rfl, by decide⟩ | exact ⟨.EIGHTEEN, _, rfl, rfl, by decide⟩
      | exact ⟨.NINETEEN, _, rfl, rfl, by decide⟩ | exact ⟨.TWENTY, _, rfl, rfl, by decide⟩
      | exact ⟨.TWENTYONE, _, rfl, rfl, by decide⟩ | exact ⟨.TWENTYTWO, _, rfl, rfl, by decide⟩
      | exact ⟨.TWENTYTHREE, _, rfl, rfl, by decide⟩
      | exact ⟨.TWENTYFOUR, _, rfl, rfl, by decide⟩ | exact ⟨.TWENTYSIX, _, rfl, rfl, by decide⟩
      | exact ⟨.TWENTYEIGHT, _, rfl, rfl, by decide⟩ | exact ⟨.THIRTY, _, rfl, rfl, by decide⟩
      | exact ⟨.THIRTYTWO, _, rfl, rfl, by decide⟩ | exact ⟨.FORTY, _, rfl, rfl, by decide⟩
      | exact ⟨.FORTYEIGHT, _, rfl, rfl, by decide⟩ | exact ⟨.FIFTYSIX, _, rfl, rfl, by decide⟩
      | exact ⟨.SIXTYFOUR, _, rfl, rfl, by decide⟩

/-- C7: from every decoder state, `resetReadLongs` leaves `bitsLeft = 0` and `curByte = 0`,
and `resetRun` leaves `bitsLeft = 0`, `curByte = 0` and `bitSize = 0`. -/
theorem reset_clears_bit_state (s : RleDecoderV2) :
    (resetReadLongs s).bitsLeft = 0 ∧ (resetReadLongs s).curByte = 0 ∧
    (resetRun s).bitsLeft = 0 ∧ (resetRun s).curByte = 0 ∧ (resetRun s).bitSize = 0 :=
  ⟨rfl, rfl, rfl, rfl, rfl⟩

/-! ## Outcomes of adjustGapAndPatch -/

theorem exists_first_nonmarker (s : RleDecoderV2)
    (hex : ∃ k, s.patchIdx + k < s.unpackedPatch.length ∧ ¬ markerAt s (s.patchIdx + k)) :
    ∃ k, s.patchIdx + k < s.unpackedPatch.length ∧
      (∀ j, j < k → markerAt s (s.patchIdx + j)) ∧ ¬ markerAt s (s.patchIdx + k) := by
  classical
  refine ⟨Nat.find hex, (Nat.find_spec hex).1, ?_, (Nat.find_spec hex).2⟩
  intro j hj
  have hmin := Nat.find_min hex hj
  have hlt := (Nat.find_spec hex).1
  by_contra hc
  exact hmin ⟨by omega, hc⟩

/-- No call of `adjustGapAndPatch` throws, and none uses up the loop budget: the call
returns, or it reads `unpackedPatch` at an index outside the buffer. -/
theorem adjustGapAndPatch_outcomes (s : RleDecoderV2) :
    (∃ s', (adjustGapAndPatch s).result = .returned s') ∨
    (adjustGapAndPatch s).result = .readPastEnd (max s.patchIdx s.unpackedPatch.length) := by
  by_cases hlt : s.patchIdx < s.unpackedPatch.length
  · by_cases hex : ∃ k, s.patchIdx + k < s.unpackedPatch.length ∧ ¬ markerAt s (s.patchIdx + k)
    · obtain ⟨k, h1, h2, h3⟩ := exists_first_nonmarker s hex
      exact Or.inl ⟨_, by rw [adjustGapAndPatch_of_markers s k h1 h2 h3]⟩
    · right
      rw [adjustGapAndPatch_of_all_markers s hlt (by
        intro j h1 h2
        by_contra hc
        apply hex
        refine ⟨j - s.patchIdx, by omega, ?_⟩
        rw [show s.patchIdx + (j - s.patchIdx) = j by omega]; exact hc)]
      show Result.readPastEnd _ = Result.readPastEnd _
      rw [Nat.max_eq_right (by omega)]
  · right
    rw [adjustGapAndPatch_of_ge s (by omega)]
    show Result.readPastEnd _ = Result.readPastEnd _
    rw [Nat.max_eq_left (by omega)]

/-! ## Postcondition of adjustGapAndPatch -/

/-- In a patch list of at most 31 entries whose gaps are at most 255 (the 5-bit list
length and the gap width of at most 8 bits of the PATCHED_BASE header), 255 per skipped
marker plus the gap of any entry is at most 7905, far below `2 ^ 63`. -/
theorem gap_sum_fits_of_header_bounds (s : RleDecoderV2) (k : Nat)
    (hlen31 : s.unpackedPatch.length ≤ 31)
    (hgap : ∀ e ∈ s.unpackedPatch, gapOf s.patchBitSize e ≤ 255)
    (hlen : s.patchIdx + k < s.unpackedPatch.length) :
    255 * k + gapOf s.patchBitSize (entryAt s (s.patchIdx + k)) ≤ 7905 ∧
    255 * k + gapOf s.patchBitSize (entryAt s (s.patchIdx + k)) < 2 ^ 63 := by
  have hg : gapOf s.patchBitSize (entryAt s (s.patchIdx + k)) ≤ 255 := by
    apply hgap
    unfold entryAt
    rw [List.getD_eq_getElem _ _ hlen]
    exact List.getElem_mem _
  constructor <;> omega

/-- C5: when entries `i .. i+k-1` are gap-overflow markers and entry `i+k` exists and is
not a marker, with `g` the gap and `p` the patch of entry `i+k`, `adjustGapAndPatch`
returns with `patchIdx = i+k`, `curGap = g`, `curPatch = p` and `actualGap = 255*k + g`,
whatever `curGap`, `curPatch` and `actualGap` held before.  The sum `255*k + g` is taken
to be an `int64_t` value, as `actualGap` is; it is at most 7905 on every patch list the
PATCHED_BASE header can describe. -/
theorem adjustGapAndPatch_postcondition (s : RleDecoderV2) (k : Nat)
    (hlen : s.patchIdx + k < s.unpackedPatch.length)
    (hm : ∀ j, j < k → markerAt s (s.patchIdx + j))
    (hn : ¬ markerAt s (s.patchIdx + k))
    (hfit : 255 * k + gapOf s.patchBitSize (entryAt s (s.patchIdx + k)) < 2 ^ 63) :
    ∃ s', (adjustGapAndPatch s).result = .returned s' ∧
      s'.patchIdx = s.patchIdx + k ∧
      s'.curGap = gapOf s.patchBitSize (entryAt s (s.patchIdx + k)) ∧
      s'.curPatch = patchOf s.patchMask (entryAt s (s.patchIdx + k)) ∧
      s'.actualGap = 255 * (k : Int)
        + (gapOf s.patchBitSize (entryAt s (s.patchIdx + k)) : Int) := by
  refine ⟨_, by rw [adjustGapAndPatch_of_markers s k hlen hm hn], rfl, rfl, rfl, ?_⟩
  show wrapInt64 _ = _
  apply wrapInt64_of_range <;> omega

/-- Witness of C5: from a state whose `curGap`, `curPatch` and `actualGap` hold 77, 78
and 79, over one marker and then the entry with gap 3 and patch 5. -/
theorem adjustGapAndPatch_postcondition_witness :
    sampleBefore.patchIdx + 1 < sampleBefore.unpackedPatch.length ∧
    (∀ j, j < 1 → markerAt sampleBefore (sampleBefore.patchIdx + j)) ∧
    ¬ markerAt sampleBefore (sampleBefore.patchIdx + 1) ∧
    255 * 1 + gapOf sampleBefore.patchBitSize
      (entryAt sampleBefore (sampleBefore.patchIdx + 1)) < 2 ^ 63 ∧
    ∃ s', (adjustGapAndPatch sampleBefore).result = .returned s' ∧
      s'.patchIdx = 0 + 1 ∧ s'.curGap = 3 ∧ s'.curPatch = 5 ∧
      s'.actualGap = 255 * ((1 : Nat) : Int) + ((3 : Nat) : Int) :=
  ⟨by decide, by decide, by decide, by decide,
   adjustGapAndPatch_postcondition sampleBefore 1
    (by decide) (by decide) (by decide) (by decide)⟩

/-! ## Patch entries -/

theorem packed_word_lt (w gw gap patch : Nat) (hsum : w + gw ≤ 64)
    (hgap : gap < 2 ^ gw) (hpatch : patch < 2 ^ w) : gap * 2 ^ w + patch < 2 ^ 64 := by
  have h1 : gap * 2 ^ w + patch < (gap + 1) * 2 ^ w := by
    rw [Nat.add_mul, Nat.one_mul]; omega
  have h2 : (gap + 1) * 2 ^ w ≤ 2 ^ gw * 2 ^ w := Nat.mul_le_mul_right _ hgap
  have h3 : 2 ^ gw * 2 ^ w = 2 ^ (gw + w) := (Nat.pow_add 2 gw w).symm
  have h4 : 2 ^ (gw + w) ≤ 2 ^ 64 := Nat.pow_le_pow_right (by decide) (by omega)
  omega

theorem packed_word_eq (w gap patch : Nat) (hpatch : patch < 2 ^ w) :
    (gap <<< w) ||| patch = gap * 2 ^ w + patch := by
  rw [Nat.shiftLeft_eq, Nat.mul_comm, ← Nat.mul_add_lt_is_or hpatch]

theorem toUInt64_mask (w : Nat) (hw : w ≤ 63) : toUInt64 ((2 : Int) ^ w - 1) = 2 ^ w - 1 := by
  have hpos : 0 < 2 ^ w := Nat.two_pow_pos w
  have hle : 2 ^ w ≤ 2 ^ 63 := Nat.pow_le_pow_right (by decide) hw
  have hc : ((2 : Int) ^ w - 1) = ((2 ^ w - 1 : Nat) : Int) := by
    rw [Nat.cast_sub hpos]; push_cast; ring
  rw [hc]
  apply toUInt64_natCast
  omega

theorem toInt64_of_lt (n : Nat) (h : n < 2 ^ 63) : toInt64 n = (n : Int) := by
  unfold toInt64
  split <;> omega

/-- C6: for a patch width `w` in 1..63 and a gap width `gw` in 1..8 with `w + gw <= 64`,
a gap below `2^gw` and a patch below `2^w` that do not form a marker, with
`patchBitSize = w`, `patchMask = (1 << w) - 1` and `unpackedPatch[patchIdx]` holding the
64-bit word `(gap << w) | patch` (as an `int64_t`, negative when its top bit is set),
`adjustGapAndPatch` returns with `curGap = gap` and `curPatch = patch`. -/
theorem adjustGapAndPatch_unpacks_entry (s : RleDecoderV2) (w gw gap patch : Nat)
    (_hw1 : 1 ≤ w) (hw : w ≤ 63) (_hgw1 : 1 ≤ gw) (_hgw : gw ≤ 8) (hsum : w + gw ≤ 64)
    (hgap : gap < 2 ^ gw) (hpatch : patch < 2 ^ w) (hnm : ¬ (gap = 255 ∧ patch = 0))
    (hbits : s.patchBitSize = w) (hmask : s.patchMask = (2 : Int) ^ w - 1)
    (hentry : s.unpackedPatch[s.patchIdx]? = some (toInt64 ((gap <<< w) ||| patch))) :
    ∃ s', (adjustGapAndPatch s).result = .returned s' ∧
      s'.curGap = gap ∧ s'.curPatch = (patch : Int) := by
  have hpos : 0 < 2 ^ w := Nat.two_pow_pos w
  have hle : 2 ^ w ≤ 2 ^ 63 := Nat.pow_le_pow_right (by decide) hw
  have hlt : s.patchIdx < s.unpackedPatch.length := by
    by_contra hc
    rw [List.getElem?_eq_none (by omega)] at hentry
    cases hentry
  have he : entryAt s s.patchIdx = toInt64 (gap * 2 ^ w + patch) := by
    unfold entryAt
    rw [List.getD_eq_getElem?_getD, hentry, packed_word_eq w gap patch hpatch]
    rfl
  have hword := packed_word_lt w gw gap patch hsum hgap hpatch
  have hg : gapOf s.patchBitSize (entryAt s s.patchIdx) = gap := by
    unfold gapOf
    rw [he, hbits, toUInt64_toInt64 _ hword, Nat.shiftRight_eq_div_pow,
      Nat.mul_comm, Nat.mul_add_div hpos, Nat.div_eq_of_lt hpatch, Nat.add_zero]
  have hp : patchOf s.patchMask (entryAt s s.patchIdx) = (patch : Int) := by
    unfold patchOf andInt64
    rw [he, hmask, toUInt64_toInt64 _ hword, toUInt64_mask w hw,
      Nat.and_pow_two_sub_one_eq_mod, Nat.mul_comm, Nat.mul_add_mod, Nat.mod_eq_of_lt hpatch,
      toInt64_of_lt _ (by omega)]
  have hn : ¬ markerAt s (s.patchIdx + 0) := by
    unfold markerAt isMarker
    rw [Nat.add_zero, hg, hp]
    intro h
    exact hnm ⟨h.1, by exact_mod_cast h.2⟩
  refine ⟨_, by rw [adjustGapAndPatch_of_markers s 0 (by omega) (by intro j hj; omega) hn],
    ?_, ?_⟩
  · show gapOf s.patchBitSize (entryAt s (s.patchIdx + 0)) = gap
    rw [Nat.add_zero, hg]
  · show patchOf s.patchMask (entryAt s (s.patchIdx + 0)) = (patch : Int)
    rw [Nat.add_zero, hp]

/-- Witness of C6: `w = 56`, `gw = 8`, gap 200 and patch 5; the word has its top bit set,
so the stored entry is negative. -/
theorem adjustGapAndPatch_unpacks_entry_witness :
    toInt64 ((200 <<< 56) ||| 5) < 0 ∧
    ∃ s', (adjustGapAndPatch
        (patchState 56 (2 ^ 56 - 1) [toInt64 ((200 <<< 56) ||| 5)] 0)).result = .returned s' ∧
      s'.curGap = 200 ∧ s'.curPatch = ((5 : Nat) : Int) :=
  ⟨by decide,
   adjustGapAndPatch_unpacks_entry
    (patchState 56 (2 ^ 56 - 1) [toInt64 ((200 <<< 56) ||| 5)] 0) 56 8 200 5
    (by decide) (by decide) (by decide) (by decide) (by decide) (by decide) (by decide)
    (by decide) rfl rfl rfl⟩

/-! ## Safety, frame and bounds -/

/-- C8: when some index `j` with `patchIdx <= j < length` holds a non-marker entry, and
`j0` is the least such index, `adjustGapAndPatch` returns, every index it reads lies in
`[patchIdx, j0]` (hence inside the list), and on return the cursor is `j0` with
`not (curGap = 255 and curPatch = 0)`. -/
theorem adjustGapAndPatch_safe (s : RleDecoderV2)
    (h : ∃ j, s.patchIdx ≤ j ∧ j < s.unpackedPatch.length ∧ ¬ markerAt s j) :
    ∃ j0 s', (s.patchIdx ≤ j0 ∧ j0 < s.unpackedPatch.length ∧ ¬ markerAt s j0) ∧
      (∀ j, s.patchIdx ≤ j → j < s.unpackedPatch.length → ¬ markerAt s j → j0 ≤ j) ∧
      (adjustGapAndPatch s).result = .returned s' ∧
      (∀ i ∈ (adjustGapAndPatch s).reads,
        s.patchIdx ≤ i ∧ i ≤ j0 ∧ i < s.unpackedPatch.length) ∧
      s'.patchIdx = j0 ∧ ¬ (s'.curGap = 255 ∧ s'.curPatch = 0) := by
  classical
  have hex : ∃ k, s.patchIdx + k < s.unpackedPatch.length ∧ ¬ markerAt s (s.patchIdx + k) := by
    obtain ⟨j, h1, h2, h3⟩ := h
    refine ⟨j - s.patchIdx, by omega, ?_⟩
    rw [show s.patchIdx + (j - s.patchIdx) = j by omega]; exact h3
  have hk := Nat.find_spec hex
  have hmin : ∀ j, j < Nat.find hex → markerAt s (s.patchIdx + j) := by
    intro j hj
    have := Nat.find_min hex hj
    by_contra hc
    exact this ⟨by omega, hc⟩
  have hrun := adjustGapAndPatch_of_markers s _ hk.1 hmin hk.2
  refine ⟨s.patchIdx + Nat.find hex, _, ⟨by omega, hk.1, hk.2⟩, ?_, by rw [hrun], ?_, rfl, ?_⟩
  · intro j h1 h2 h3
    by_contra hc
    have hlt : j - s.patchIdx < Nat.find hex := by omega
    have := hmin _ hlt
    rw [show s.patchIdx + (j - s.patchIdx) = j by omega] at this
    exact h3 this
  · intro i hi
    rw [hrun] at hi
    simp only [List.mem_map, List.mem_range] at hi
    obtain ⟨a, ha, rfl⟩ := hi
    have := hk.1
    omega
  · exact hk.2

/-- Witness of C8: the list holds two markers and then a proper entry. -/
theorem adjustGapAndPatch_safe_witness :
    (∃ j, (patchState 8 255 [0xFF00, 0xFF00, 0x0305] 0).patchIdx ≤ j ∧
      j < (patchState 8 255 [0xFF00, 0xFF00, 0x0305] 0).unpackedPatch.length ∧
      ¬ markerAt (patchState 8 255 [0xFF00, 0xFF00, 0x0305] 0) j) ∧
    ∃ j0 s', (0 ≤ j0 ∧ j0 < 3 ∧ ¬ markerAt (patchState 8 255 [0xFF00, 0xFF00, 0x0305] 0) j0) ∧
      (∀ j, 0 ≤ j → j < 3 →
        ¬ markerAt (patchState 8 255 [0xFF00, 0xFF00, 0x0305] 0) j → j0 ≤ j) ∧
      (adjustGapAndPatch (patchState 8 255 [0xFF00, 0xFF00, 0x0305] 0)).result
        = .returned s' ∧
      (∀ i ∈ (adjustGapAndPatch (patchState 8 255 [0xFF00, 0xFF00, 0x0305] 0)).reads,
        0 ≤ i ∧ i ≤ j0 ∧ i < 3) ∧
      s'.patchIdx = j0 ∧ ¬ (s'.curGap = 255 ∧ s'.curPatch = 0) :=
  ⟨⟨2, by decide, by decide, by decide⟩,
   adjustGapAndPatch_safe (patchState 8 255 [0xFF00, 0xFF00, 0x0305] 0)
    ⟨2, by decide, by decide, by decide⟩⟩

/-- C9: when `adjustGapAndPatch` returns, the state differs from the state before the call
in `curGap`, `curPatch`, `actualGap` and `patchIdx` only: `unpackedPatch`, `unpacked`,
`patchBitSize`, `patchMask`, `unpackedIdx`, `runLength`, `runRead`, `base`, `bitSize`,
`bitsLeft`, `curByte` and every other member are unchanged; `patchIdx` does not
decrease. -/
theorem adjustGapAndPatch_frame (s s' : RleDecoderV2)
    (h : (adjustGapAndPatch s).result = .returned s') :
    s' = { s with curGap := s'.curGap, curPatch := s'.curPatch,
                  actualGap := s'.actualGap, patchIdx := s'.patchIdx } ∧
    s'.unpackedPatch = s.unpackedPatch ∧ s'.unpacked = s.unpacked ∧
    s'.patchBitSize = s.patchBitSize ∧ s'.patchMask = s.patchMask ∧
    s'.unpackedIdx = s.unpackedIdx ∧ s'.runLength = s.runLength ∧
    s'.runRead = s.runRead ∧ s'.base = s.base ∧ s'.bitSize = s.bitSize ∧
    s'.bitsLeft = s.bitsLeft ∧ s'.curByte = s.curByte ∧
    s.patchIdx ≤ s'.patchIdx := by
  obtain ⟨k, _, _, _, rfl⟩ := adjustGapAndPatch_returned_inv s s' h
  refine ⟨rfl, rfl, rfl, rfl, rfl, rfl, rfl, rfl, rfl, rfl, rfl, rfl, ?_⟩
  show s.patchIdx ≤ s.patchIdx + k
  omega

/-- Witness of C9: a state with non-zero members around the patch cursor. -/
theorem adjustGapAndPatch_frame_witness :
    (adjustGapAndPatch sampleBefore).result = .returned sampleAfter ∧
    (sampleAfter = { sampleBefore with curGap := sampleAfter.curGap,
                                       curPatch := sampleAfter.curPatch,
                                       actualGap := sampleAfter.actualGap,
                                       patchIdx := sampleAfter.patchIdx } ∧
      sampleAfter.unpackedPatch = sampleBefore.unpackedPatch ∧
      sampleAfter.unpacked = sampleBefore.unpacked ∧
      sampleAfter.patchBitSize = sampleBefore.patchBitSize ∧
      sampleAfter.patchMask = sampleBefore.patchMask ∧
      sampleAfter.unpackedIdx = sampleBefore.unpackedIdx ∧
      sampleAfter.runLength = sampleBefore.runLength ∧
      sampleAfter.runRead = sampleBefore.runRead ∧ sampleAfter.base = sampleBefore.base ∧
      sampleAfter.bitSize = sampleBefore.bitSize ∧
      sampleAfter.bitsLeft = sampleBefore.bitsLeft ∧
      sampleAfter.curByte = sampleBefore.curByte ∧
      sampleBefore.patchIdx ≤ sampleAfter.patchIdx) :=
  ⟨by decide, adjustGapAndPatch_frame sampleBefore sampleAfter (by decide)⟩

/-- C10: for a patch list of at most 31 entries whose decoded gaps are all at most 255,
when `adjustGapAndPatch` returns, `actualGap` is the exact sum of 255 per skipped marker
and the final gap (no wrap-around), and
`0 <= actualGap <= 255 * (length - patchIdx_before) <= 7905`. -/
theorem adjustGapAndPatch_actualGap_bound (s s' : RleDecoderV2)
    (hlen : s.unpackedPatch.length ≤ 31)
    (hgap : ∀ e ∈ s.unpackedPatch, gapOf s.patchBitSize e ≤ 255)
    (h : (adjustGapAndPatch s).result = .returned s') :
    s'.actualGap = 255 * ((s'.patchIdx - s.patchIdx : Nat) : Int) + (s'.curGap : Int) ∧
    0 ≤ s'.actualGap ∧
    s'.actualGap ≤ 255 * ((s.unpackedPatch.length - s.patchIdx : Nat) : Int) ∧
    255 * (s.unpackedPatch.length - s.patchIdx) ≤ 7905 := by
  obtain ⟨k, hk, _, _, rfl⟩ := adjustGapAndPatch_returned_inv s s' h
  have hg : gapOf s.patchBitSize (entryAt s (s.patchIdx + k)) ≤ 255 := by
    apply hgap
    unfold entryAt
    rw [List.getD_eq_getElem _ _ hk]
    exact List.getElem_mem _
  have hact : (withCursor s (s.patchIdx + k)
      (gapOf s.patchBitSize (entryAt s (s.patchIdx + k)))
      (patchOf s.patchMask (entryAt s (s.patchIdx + k)))
      (wrapInt64 (255 * (k : Int)
        + (gapOf s.patchBitSize (entryAt s (s.patchIdx + k)) : Int)))).actualGap
      = 255 * (k : Int) + (gapOf s.patchBitSize (entryAt s (s.patchIdx + k)) : Int) := by
    show wrapInt64 _ = _
    apply wrapInt64_of_range <;> omega
  rw [hact]
  refine ⟨?_, by omega, by omega, by omega⟩
  show _ = 255 * ((s.patchIdx + k - s.patchIdx : Nat) : Int)
    + (gapOf s.patchBitSize (entryAt s (s.patchIdx + k)) : Int)
  rw [Nat.add_sub_cancel_left]

/-- Witness of C10: a three-entry list with two markers; `actualGap` is 513. -/
theorem adjustGapAndPatch_actualGap_bound_witness :
    (patchState 8 255 [0xFF00, 0xFF00, 0x0305] 0).unpackedPatch.length ≤ 31 ∧
    (∀ e ∈ (patchState 8 255 [0xFF00, 0xFF00, 0x0305] 0).unpackedPatch, gapOf 8 e ≤ 255) ∧
    (adjustGapAndPatch (patchState 8 255 [0xFF00, 0xFF00, 0x0305] 0)).result
      = .returned (withCursor (patchState 8 255 [0xFF00, 0xFF00, 0x0305] 0) 2 3 5 513) ∧
    ((513 : Int) = 255 * ((2 - 0 : Nat) : Int) + ((3 : Nat) : Int) ∧
      (0 : Int) ≤ 513 ∧ (513 : Int) ≤ 255 * ((3 - 0 : Nat) : Int) ∧ 255 * (3 - 0) ≤ 7905) :=
  ⟨by decide, by decide, by decide,
   adjustGapAndPatch_actualGap_bound (patchState 8 255 [0xFF00, 0xFF00, 0x0305] 0)
    (withCursor (patchState 8 255 [0xFF00, 0xFF00, 0x0305] 0) 2 3 5 513)
    (by decide) (by decide) (by decide)⟩

/-- C2 fails on the code: with `patchBitSize = 8`, `patchMask = 0xFF` and the one-entry
patch list `[0xFF00]` (gap 255, patch 0), every entry from `patchIdx = 0` to the end is a
marker; the call reads index 0, then index 1, which is the size of the list, and ends in
that read outside the buffer; it does not throw `ParseError`. -/
theorem adjustGapAndPatch_reads_past_end :
    (∀ j, 0 ≤ j → j < (patchState 8 255 [0xFF00] 0).unpackedPatch.length →
      markerAt (patchState 8 255 [0xFF00] 0) j) ∧
    adjustGapAndPatch (patchState 8 255 [0xFF00] 0) = ⟨[0, 1], .readPastEnd 1⟩ ∧
    (patchState 8 255 [0xFF00] 0).unpackedPatch.length ∈
      (adjustGapAndPatch (patchState 8 255 [0xFF00] 0)).reads ∧
    (adjustGapAndPatch (patchState 8 255 [0xFF00] 0)).result ≠ .threw .ParseError := by
  refine ⟨?_, by decide, by decide, by decide⟩
  intro j _ hj
  have : j = 0 := by
    have : (patchState 8 255 [0xFF00] 0).unpackedPatch.length = 1 := rfl
    omega
  subst this
  decide

end orc
